import Mathlib

/-!
Verification development for the RMG-Py kinetics-family core
(rmgpy/data/kinetics/family.py): the reaction-recipe engine, the
recipe-application pipeline, the reverse-reaction linkage, the tree-growth
splitting step, the cascade batching scheme and the rate-rule uncertainty
computation are embedded shallowly and their specified properties are
settled.  Graph primitives from rmgpy.molecule (subgraph isomorphism,
labeled-atom lookup, kekulization, rate-model fitting) live outside the
embedded sources and enter as parameters or as operations modelled from
their use sites; each such point is noted on the definition using it.
-/

namespace RMG

/-! ## Reaction recipes (`ReactionRecipe`) -/

/-- The seven recipe action kinds admitted by `KineticsFamily.loadRecipe`
(`valid_actions` in family.py): `CHANGE_BOND` carries a signed bond-order
delta, `FORM_BOND`/`BREAK_BOND` carry a bond order, the radical and pair
actions carry a count.  The Python source stores the numeric parameters as
ints or their decimal string renderings and normalizes with `int`; they are
embedded as canonical integers. -/
inductive Action where
| changeBond (label1 : String) (order : Int) (label2 : String)
| formBond (label1 : String) (order : Int) (label2 : String)
| breakBond (label1 : String) (order : Int) (label2 : String)
| gainRadical (label : String) (change : Int)
| loseRadical (label : String) (change : Int)
| gainPair (label : String) (change : Int)
| losePair (label : String) (change : Int)
deriving DecidableEq, Repr

/-- One step of `ReactionRecipe.getReverse` (family.py lines 242-264):
`CHANGE_BOND` negates its order delta (`str(-int(action[2]))`),
`FORM_BOND` and `BREAK_BOND` swap, `GAIN_RADICAL` and `LOSE_RADICAL` swap,
`GAIN_PAIR` and `LOSE_PAIR` swap, parameters otherwise unchanged. -/
def reverseAction : Action → Action
| .changeBond l1 o l2 => .changeBond l1 (-o) l2
| .formBond l1 o l2 => .breakBond l1 o l2
| .breakBond l1 o l2 => .formBond l1 o l2
| .gainRadical l n => .loseRadical l n
| .loseRadical l n => .gainRadical l n
| .gainPair l n => .losePair l n
| .losePair l n => .gainPair l n

/-- `ReactionRecipe.getReverse`: the loop appends one reversed action per
action of the recipe, preserving the order of the action list. -/
def getReverse (actions : List Action) : List Action :=
actions.map reverseAction

/-! ## The working molecular structure edited by `ReactionRecipe.__apply`

The merged reactant graph is embedded as a list of labeled atoms (atoms are
identified by their position in the list, standing for Python object
identity) and a list of bonds between atom positions.  Bond orders are
rationals so that the benzene order 1.5 is representable. -/

/-- An atom of the working structure: its atom label (the `*n` tag), its
free-electron count and its lone-pair count. -/
structure MAtom where
  label : String
  radicalElectrons : Int
  lonePairs : Int
deriving DecidableEq, Repr

/-- A bond of the working structure, between the atoms at positions `idx1`
and `idx2`, with rational order (0 = vdW, 1, 1.5 = benzene, 2, 3). -/
structure MBond where
  idx1 : Nat
  idx2 : Nat
  order : ℚ
deriving DecidableEq, Repr

/-- The working structure: atoms, bonds and the `validAromatic` flag kept
in `struct.props` by `__apply`. -/
structure MStruct where
  atoms : List MAtom
  bonds : List MBond
  validAromatic : Bool
deriving DecidableEq, Repr

/-- Positions of the atoms carrying a given label, in list order
(`struct.getLabeledAtom(label)`). -/
def labeledIdx (s : MStruct) (l : String) : List Nat :=
s.atoms.enum.filterMap (fun p => if p.2.label = l then some p.1 else none)

/-- Position in the bond list of the bond between atom positions `i` and
`j`, if any (`struct.hasBond` / `struct.getBond`). -/
def bondIdxBetween (s : MStruct) (i j : Nat) : Option Nat :=
s.bonds.findIdx? (fun b => (b.idx1 == i && b.idx2 == j) || (b.idx1 == j && b.idx2 == i))

/-- `struct.hasBond(atom1, atom2)`. -/
def hasBond (s : MStruct) (i j : Nat) : Bool :=
(bondIdxBetween s i j).isSome

/-- The failure modes of a recipe step.  `invalidAction` embeds
`InvalidActionError`; `valueErr` embeds the `ValueError` raised outside the
engine by `Molecule.getBond` on unbonded atoms; `unpackErr` embeds the
Python `ValueError` from unpacking `atom1, atom2 = atoms` when fewer than
two atoms carry the shared label; `kekulizationErr` embeds
`KekulizationError` (raised by the external `kekulize`, never by a step
here, but caught by `__generateProductStructures`). -/
inductive ApplyErr where
| invalidAction (msg : String)
| valueErr (msg : String)
| unpackErr
| kekulizationErr
deriving DecidableEq, Repr

/-- Resolution of the two atom centers of a bond action (family.py lines
288-301).  With distinct labels the first atom carrying each label is
taken; with a shared label the label must tag exactly two atoms (more than
two is an `InvalidActionError`, fewer than two fails the tuple unpacking).
Identical resolved atoms are an `InvalidActionError`.  The lookup helper
`getLabeledAtom` is external (rmgpy.molecule); its missing-label behaviour
is modelled from the spec: recipe application fails with InvalidAction on a
missing label. -/
def resolvePair (s : MStruct) (l1 l2 : String) : Except ApplyErr (Nat × Nat) :=
if l1 ≠ l2 then
  match labeledIdx s l1, labeledIdx s l2 with
  | i1 :: _, i2 :: _ =>
      if i1 = i2 then .error (.invalidAction "Invalid atom labels encountered.")
      else .ok (i1, i2)
  | _, _ => .error (.invalidAction "Invalid atom labels encountered.")
else
  let idxs := labeledIdx s l1
  if idxs.length > 2 then .error (.invalidAction "Invalid atom labels encountered.")
  else
    match idxs with
    | [i1, i2] =>
        if i1 = i2 then .error (.invalidAction "Invalid atom labels encountered.")
        else .ok (i1, i2)
    | [] => .error (.invalidAction "Invalid atom labels encountered.")
    | _ => .error .unpackErr

/-- The `FORM_BOND`-forward / `BREAK_BOND`-reverse branch (family.py lines
315-323): creating an existing bond is an `InvalidActionError`, a bond
order other than single (1) or van der Waals (0) is an
`InvalidActionError`, otherwise the bond is added.  The atom-side
`applyAction` bookkeeping is internal to rmgpy.molecule and not modelled. -/
def formBondAt (s : MStruct) (i1 i2 : Nat) (info : Int) : Except ApplyErr MStruct :=
if hasBond s i1 i2 then .error (.invalidAction "Attempted to create an existing bond.")
else if info ≠ 1 ∧ info ≠ 0 then
  .error (.invalidAction "Attempted to create bond of invalid type.")
else .ok { s with bonds := s.bonds ++ [⟨i1, i2, (info : ℚ)⟩] }

/-- The `BREAK_BOND`-forward / `FORM_BOND`-reverse branch (family.py lines
324-330): removing a nonexistent bond is an `InvalidActionError`. -/
def breakBondAt (s : MStruct) (i1 i2 : Nat) : Except ApplyErr MStruct :=
match bondIdxBetween s i1 i2 with
| none => .error (.invalidAction "Attempted to remove a nonexistent bond.")
| some k => .ok { s with bonds := s.bonds.eraseIdx k }

/-- The `CHANGE_BOND` branch (family.py lines 303-314): the bond between
the two centers has its order changed by the delta (negated when applying
in reverse); editing a benzene bond clears the `validAromatic` flag.  A
missing bond fails in the external `getBond` with a `ValueError`. -/
def changeBondAt (s : MStruct) (i1 i2 : Nat) (delta : ℚ) : Except ApplyErr MStruct :=
match bondIdxBetween s i1 i2 with
| none => .error (.valueErr "bond between the labeled atoms does not exist")
| some k =>
  let b := s.bonds.getD k ⟨0, 0, 0⟩
  let s1 := if b.order = 3 / 2 then { s with validAromatic := false } else s
  .ok { s1 with bonds := s1.bonds.set k { b with order := b.order + delta } }

/-- The `GAIN_RADICAL`/`LOSE_RADICAL` branch (family.py lines 333-351): a
unit change is applied `change` times (a non-positive count loops zero
times) to every atom carrying the label.  The missing-label failure is
modelled from the spec: recipe application fails with InvalidAction on a
missing label. -/
def radicalStep (s : MStruct) (l : String) (n : Int) (gain : Bool) : Except ApplyErr MStruct :=
if labeledIdx s l = [] then
  .error (.invalidAction "Unable to find atom with label while applying reaction recipe.")
else
  let d : Int := if gain then (n.toNat : Int) else -(n.toNat : Int)
  .ok { s with atoms := s.atoms.map (fun a =>
    if a.label = l then { a with radicalElectrons := a.radicalElectrons + d } else a) }

/-- The `GAIN_PAIR`/`LOSE_PAIR` branch (family.py lines 353-369), analogous
to the radical branch but acting on lone pairs. -/
def pairStep (s : MStruct) (l : String) (n : Int) (gain : Bool) : Except ApplyErr MStruct :=
if labeledIdx s l = [] then
  .error (.invalidAction "Unable to find atom with label while applying reaction recipe.")
else
  let d : Int := if gain then (n.toNat : Int) else -(n.toNat : Int)
  .ok { s with atoms := s.atoms.map (fun a =>
    if a.label = l then { a with lonePairs := a.lonePairs + d } else a) }

/-- One action step of `ReactionRecipe.__apply` (family.py lines 266-372),
with `doForward` selecting the forward or reverse interpretation of each
action exactly as in the source branches. -/
def applyActionStep (s : MStruct) (a : Action) (doForward : Bool) : Except ApplyErr MStruct :=
match a with
| .changeBond l1 info l2 =>
  match resolvePair s l1 l2 with
  | .error e => .error e
  | .ok (i1, i2) =>
      changeBondAt s i1 i2 (if doForward then (info : ℚ) else -(info : ℚ))
| .formBond l1 info l2 =>
  match resolvePair s l1 l2 with
  | .error e => .error e
  | .ok (i1, i2) =>
      if doForward then formBondAt s i1 i2 info else breakBondAt s i1 i2
| .breakBond l1 info l2 =>
  match resolvePair s l1 l2 with
  | .error e => .error e
  | .ok (i1, i2) =>
      if doForward then breakBondAt s i1 i2 else formBondAt s i1 i2 info
| .gainRadical l n => radicalStep s l n doForward
| .loseRadical l n => radicalStep s l n (!doForward)
| .gainPair l n => pairStep s l n doForward
| .losePair l n => pairStep s l n (!doForward)

/-- `ReactionRecipe.__apply`: sets `validAromatic` and executes the actions
in order, the first failing action aborting the whole application. -/
def applyRecipeActions (actions : List Action) (doForward : Bool) (s : MStruct) :
    Except ApplyErr MStruct :=
actions.foldlM (fun st a => applyActionStep st a doForward)
  { s with validAromatic := true }

/-- Declarative reading of the center-resolution failures that raise
`InvalidActionError`: a referenced label missing from the structure, more
than two atoms sharing the one referenced label, or the two centers
resolving to the same atom. -/
def bondPairInvalid (s : MStruct) (l1 l2 : String) : Prop :=
if l1 = l2 then
  (labeledIdx s l1).length > 2 ∨ labeledIdx s l1 = [] ∨
    ∃ i, labeledIdx s l1 = [i, i]
else
  labeledIdx s l1 = [] ∨ labeledIdx s l2 = [] ∨
    ∃ i t1 t2, labeledIdx s l1 = i :: t1 ∧ labeledIdx s l2 = i :: t2

/-- Declarative reading of every condition under which one recipe step
raises `InvalidActionError`: a center-resolution failure, creating a bond
that already exists, forming a bond of order other than single or vdW,
removing a nonexistent bond, or a radical/pair action naming a label no
atom carries. -/
def invalidActionCond (s : MStruct) (a : Action) (fwd : Bool) : Prop :=
match a with
| .changeBond l1 _ l2 => bondPairInvalid s l1 l2
| .formBond l1 o l2 =>
    bondPairInvalid s l1 l2 ∨
    ∃ i1 i2, resolvePair s l1 l2 = .ok (i1, i2) ∧
      (if fwd then (hasBond s i1 i2 = true ∨ (o ≠ 1 ∧ o ≠ 0))
       else hasBond s i1 i2 = false)
| .breakBond l1 o l2 =>
    bondPairInvalid s l1 l2 ∨
    ∃ i1 i2, resolvePair s l1 l2 = .ok (i1, i2) ∧
      (if fwd then hasBond s i1 i2 = false
       else (hasBond s i1 i2 = true ∨ (o ≠ 1 ∧ o ≠ 0)))
| .gainRadical l _ => labeledIdx s l = []
| .loseRadical l _ => labeledIdx s l = []
| .gainPair l _ => labeledIdx s l = []
| .losePair l _ => labeledIdx s l = []

/-- The try/except of `KineticsFamily.__generateProductStructures`
(family.py lines 1575-1597): `InvalidActionError` and `KekulizationError`
make the candidate mapping yield no product structures (`None`); other
errors propagate (`ActionError` is re-raised after logging). -/
def catchInvalid (r : Except ApplyErr MStruct) : Except ApplyErr (Option MStruct) :=
match r with
| .ok st => .ok (some st)
| .error (.invalidAction _) => .ok none
| .error .kekulizationErr => .ok none
| .error e => .error e

/-- The candidate-mapping loop of `KineticsFamily.__generateReactions`:
each mapping's product generation is attempted in order; a mapping that
yields no structures is skipped, while the remaining mappings are still
processed; an uncaught error aborts the whole enumeration. -/
def mappingLoop {M : Type} (gen : M → Except ApplyErr MStruct) :
    List M → Except ApplyErr (List MStruct)
| [] => .ok []
| m :: rest =>
  match catchInvalid (gen m) with
  | .error e => .error e
  | .ok none => mappingLoop gen rest
  | .ok (some p) =>
    match mappingLoop gen rest with
    | .error e => .error e
    | .ok ps => .ok (p :: ps)

/-- A concrete two-atom structure (atoms labeled `*1` and `*2`, no bonds)
used to evaluate the engine at explicit inputs. -/
def twoAtomStruct : MStruct :=
⟨[⟨"*1", 0, 0⟩, ⟨"*2", 0, 0⟩], [], true⟩

/-! ## `KineticsFamily.applyRecipe`: product count and net charge

The tail of `applyRecipe` (family.py lines 1474-1527) is modelled on the
data the checks consume: the number of split product components, the net
charges `getNetCharge()` of the reactant structures and of the split
product structures (charge computation itself is external to the engine),
and whether the structures are `Molecule`s (versus `Group`s).  The slice
contains no raise statement: every rejection is `return None`. -/

/-- The product-count and net-charge stage of `applyRecipe`.  Faithful to
the source, the "product" side of the charge comparison re-reads the stale
reactant loop variable `struc` (the last reactant structure), so it adds
the last reactant's net charge once per product structure instead of the
product charges. -/
def applyRecipeSplitStage (reactantCharges productCharges : List Int) (productNum : Nat)
    (isMolecule : Bool) : Option (List Int) :=
if productNum ≠ productCharges.length then none
else
  let reactantNet := reactantCharges.sum
  let productNet := (productCharges.length : Int) * (reactantCharges.getLast?.getD 0)
  if reactantNet ≠ productNet then none
  else if (reactantCharges.any (· ≠ 0) || productCharges.any (· ≠ 0)) && isMolecule then none
  else some productCharges

/-! ## `KineticsFamily._splitReactions` and the `extendNode` partition

A training reaction is abstract here; the merged-reactant-graph subgraph
isomorphism test against the extension group (`isSubgraphIsomorphic` with
`generateInitialMap`, external to the embedded sources) enters as the
boolean `mtch`. -/

/-- The enumerated loop of `_splitReactions` (family.py lines 2835-2862),
carrying the running index: each reaction goes to the `new` list (with its
index recorded in `new_inds`) when its merged reactant graph mtch the
new group, else to the `comp` list. -/
def splitReactionsAux {R : Type} (mtch : R → Bool) : Nat → List R → List R × List R × List Nat
| _, [] => ([], [], [])
| i, r :: rest =>
  if mtch r then
    (r :: (splitReactionsAux mtch (i + 1) rest).1,
      (splitReactionsAux mtch (i + 1) rest).2.1,
      i :: (splitReactionsAux mtch (i + 1) rest).2.2)
  else
    ((splitReactionsAux mtch (i + 1) rest).1,
      r :: (splitReactionsAux mtch (i + 1) rest).2.1,
      (splitReactionsAux mtch (i + 1) rest).2.2)

/-- `KineticsFamily._splitReactions`: returns the reactions matching the
new group, the complement reactions, and the matching indices. -/
def splitReactions {R : Type} (mtch : R → Bool) (rxns : List R) :
    List R × List R × List Nat :=
splitReactionsAux mtch 0 rxns

/-- The re-partition by index in `extendNode` (family.py lines 3144-3149):
`for i, entry in enumerate(templateRxnMap[parent.label])`, the entry goes
to `new_entries` when `i in new_inds`, else to `comp_entries`. -/
def selectByIndsAux {R : Type} (inds : List Nat) : Nat → List R → List R × List R
| _, [] => ([], [])
| i, r :: rest =>
  if inds.contains i then
    (r :: (selectByIndsAux inds (i + 1) rest).1, (selectByIndsAux inds (i + 1) rest).2)
  else
    ((selectByIndsAux inds (i + 1) rest).1, r :: (selectByIndsAux inds (i + 1) rest).2)

/-- The `new_entries`/`comp_entries` split of `extendNode`. -/
def selectByInds {R : Type} (rxns : List R) (inds : List Nat) : List R × List R :=
selectByIndsAux inds 0 rxns

/-- The `templateRxnMap` update at the end of `extendNode` (family.py lines
3144-3160): the new child receives the matching reactions; when a
structural complement sibling exists it receives the complement reactions
and the parent's list is emptied, otherwise the parent keeps the
complement reactions.  Returned as (child, complement sibling, parent). -/
def extendNodeMapUpdate {R : Type} (complement : Bool) (mtch : R → Bool) (rxns : List R) :
    List R × List R × List R :=
let nw := (splitReactions mtch rxns).1
let cmp := (splitReactions mtch rxns).2.1
if complement then (nw, cmp, []) else (nw, [], cmp)

/-! ## `KineticsFamily.addReverseAttribute`

The reverse-reaction generation (`__generateReactions` on the product side
followed by `find_degenerate_reactions`) and the reaction isomorphism test
are external graph machinery; the list of mtch found with the family's
real forbidden list (`normal`), the list found after temporarily replacing
it with an empty `ForbiddenStructures` (`retry`), and the isomorphism
predicates (`isoStrict` for the zero-match retry check, `isoLoose` for the
`strict=False` multiple-match check) enter as parameters. -/

/-- The outcome of `addReverseAttribute`: `success rev` is `return True`
with `rxn.reverse = rev`, `rejected` is the non-error `return False` for a
forbidden-structure-explained zero-match case, `kineticsError` is a raised
`KineticsError`. -/
inductive RevResult (R : Type) where
| success (rev : R)
| rejected
| kineticsError
deriving DecidableEq, Repr

/-- `all([reactions[0].isIsomorphic(other) for other in reactions])`:
every found reaction is isomorphic to the first one. -/
def allIsoToFirst {R : Type} (iso : R → R → Bool) : List R → Bool
| [] => true
| r :: rest => (r :: rest).all (iso r)

/-- The decision structure of `KineticsFamily.addReverseAttribute`
(family.py lines 1736-1795): zero mtch trigger the empty-forbidden
retry, which is a non-error rejection exactly when it finds one match or
several mutually isomorphic ones, and a `KineticsError` otherwise;
more than one match raises `KineticsError` exactly when the mtch are
not all isomorphic to the first; otherwise the first match becomes the
reverse reaction. -/
def addReverseAttributeModel {R : Type} (isoStrict isoLoose : R → R → Bool)
    (normal retry : List R) : RevResult R :=
match normal with
| [] =>
  if retry.length = 1 ∨ (retry.length > 1 ∧ allIsoToFirst isoStrict retry = true) then
    .rejected
  else .kineticsError
| r :: rest =>
  if (r :: rest).length > 1 ∧ allIsoToFirst isoLoose (r :: rest) = false then
    .kineticsError
  else .success r

/-! ## `extendNode` with no extensions, and the `makeTreeNodes` driver

The extension search (`getExtensionEdge`) and the group state with its
regularization dimensions are abstracted: `getExts` maps the node's group
state to the found extension list, `clear` is `parent.item.clearRegDims()`,
and `same` is `same_species_lists` on two reactions' reactant lists. -/

/-- The pair scan of `extendNode` for an empty extension list (family.py
lines 3048-3095): `for q, rxn in enumerate(rs): for j in range(q)`, true
when some pair of reactions at the node differs. -/
def existsNonIdenticalPair {R : Type} (same : R → R → Bool) : List R → Bool
| [] => false
| r :: rest => rest.any (fun x => !(same x r)) || existsNonIdenticalPair same rest

/-- The empty-extension branch of `extendNode`: when some pair of the
node's reactions differs, the node's regularization dimensions are cleared
and `True` is returned (the driver restarts); when all reactions are
identical, `False` is returned.  No error is raised on this path. -/
def extendNodeEmptyBranch {G R : Type} (clear : G → G) (same : R → R → Bool)
    (g : G) (rs : List R) : G × Bool :=
if existsNonIdenticalPair same rs then (clear g, true) else (g, false)

/-- How one node fares under the `makeTreeNodes` loop: `terminal` is the
`extendNode = False` outcome (the node joins `mult_completed_nodes`),
`extended` covers a successful split, `stillRetrying n` records that the
clear-and-retry path ran `n` times without the loop ending. -/
inductive NodeGrowth where
| terminal (clears : Nat)
| extended (clears : Nat)
| stillRetrying (clears : Nat)
deriving DecidableEq, Repr

/-- The `makeTreeNodes` driving loop restricted to a single node (family.py
lines 3352-3361): while fuel remains, `extendNode` is invoked; a nonempty
extension edge splits the node, an empty one with differing reactions
clears the regularization dimensions and retries, an empty one with
identical reactions marks the node terminal. -/
def growNodeLoop {G R E : Type} (getExts : G → List E) (clear : G → G)
    (same : R → R → Bool) (rs : List R) : Nat → Nat → G → NodeGrowth
| 0, clears, _ => .stillRetrying clears
| fuel + 1, clears, g =>
  match getExts g with
  | _ :: _ => .extended clears
  | [] =>
    if existsNonIdenticalPair same rs then
      growNodeLoop getExts clear same rs fuel (clears + 1) (clear g)
    else .terminal clears

/-- The splittable-node test of the `makeTreeNodes` scan: a node is visited
when it holds more than one reaction and is not in `mult_completed_nodes`. -/
def shouldVisit {L : Type} [BEq L] (multCompleted : List L) (lbl : L) (nrxns : Nat) : Bool :=
nrxns > 1 && !(multCompleted.contains lbl)

/-! ## `_makeRule` uncertainty computation

The `ArrheniusBM` fits, enthalpy evaluations and rate coefficients are
external numerics (rmgpy.kinetics), so the leave-one-out log-deviations
`dlnks` and the rank accuracy table `rankAccuracy` (the uncertainty value
of `rank_accuracy_map` at a reaction's data-quality rank) enter as
parameters; `lnfmax` stands for `np.log(fmax)`. -/

/-- The uncertainty record `RateUncertainty(mu, var, N, Tref, correlation)`
restricted to the numeric fields the claims concern. -/
structure RateUncertaintyM where
  mu : ℚ
  var : ℚ
  N : Nat
deriving DecidableEq, Repr

/-- The gas constant literal `8.314` of `_makeRule`. -/
def gasR : ℚ := 8314 / 1000

/-- `varis = (rank_accuracy_map[rxn.rank].value_si / (2.0 * 8.314 * Tref)) ** 2`
for each training reaction. -/
def makeRuleVaris (rankAccuracy : Nat → ℚ) (Tref : ℚ) (ranks : List Nat) : List ℚ :=
ranks.map (fun r => (rankAccuracy r / (2 * gasR * Tref)) ^ 2)

/-- The inverse-variance weighted mean and variance of `_makeRule`
(family.py lines 4349-4357): `ws = 1/varis`, `V1 = sum(ws)`,
`V2 = sum(ws^2)`, `mu = ws·dlnks / V1`,
`var = s^2 = ws·(dlnks-mu)^2 / (V1 - V2/V1)`. -/
def weightedUncertainty (dlnks varis : List ℚ) : ℚ × ℚ :=
let ws := varis.map (fun v => 1 / v)
let V1 := ws.sum
let V2 := (ws.map (fun w => w ^ 2)).sum
let mu := ((ws.zip dlnks).map (fun p => p.1 * p.2)).sum / V1
let s2 := ((ws.zip dlnks).map (fun p => p.1 * (p.2 - mu) ^ 2)).sum / (V1 - V2 / V1)
(mu, s2)

/-- The uncertainty attached by `_makeRule` (family.py lines 4328-4361):
no reactions yield no rule; exactly one training reaction receives the
default `RateUncertainty(mu=0, var=(log(fmax)/2)^2, N=1)`; two or more
receive the leave-one-out inverse-variance-weighted mean and variance. -/
def makeRuleUncertainty (rankAccuracy : Nat → ℚ) (lnfmax Tref : ℚ)
    (dlnks : List ℚ) (ranks : List Nat) : Option RateUncertaintyM :=
let n := ranks.length
if n = 0 then none
else if n = 1 then some ⟨0, (lnfmax / 2) ^ 2, 1⟩
else
  let varis := makeRuleVaris rankAccuracy Tref ranks
  some ⟨(weightedUncertainty dlnks varis).1, (weightedUncertainty dlnks varis).2, n⟩

/-- The `var` field of an optional uncertainty record (0 when absent). -/
def uncVar (o : Option RateUncertaintyM) : ℚ :=
(o.map RateUncertaintyM.var).getD 0

/-! ## `KineticsFamily.getRxnBatches` (family.py lines 3209-3260)

The modified stratified sampling scheme works on reaction indices ranked by
rate coefficient at the reference temperature
(`ks = [rxn.kinetics.getRateCoefficient(T) for rxn in rxns]`,
`inds = np.argsort(ks)`); the rate values enter as rationals (only their
order matters) and `random.shuffle` enters as the `shuffle` parameter. -/

/-- Insertion of an index into a list of indices sorted ascending by the
rate values `ks`. -/
def insertIdx (ks : List ℚ) (i : Nat) : List Nat → List Nat
| [] => [i]
| j :: rest =>
  if ks.getD i 0 < ks.getD j 0 then i :: j :: rest else j :: insertIdx ks i rest

/-- `np.argsort(ks)` modelled as an insertion sort of the index list by the
rate values (ascending); the order of ties is unspecified in `np.argsort`
and immaterial to the properties proved. -/
def argsortQ (ks : List ℚ) : List Nat :=
(List.range ks.length).foldr (insertIdx ks) []

/-- `outlier_num = int(outlierFraction * len(ks) / 2)`: Python `int()`
truncation, equal to the floor for the nonnegative operands in use. -/
def outlierNum (f : ℚ) (n : Nat) : Nat := (f * n / 2).floor.toNat

/-- The outlier split (family.py lines 3228-3236): for a zero outlier
count the slices are empty and the middle keeps everything; otherwise
`lowouts = inds[:k]`, `highouts = inds[-k:]` and the middle is
`inds[k:-k]`.  Returned as (low, high, middle). -/
def splitOutliers (inds : List Nat) (k : Nat) : List Nat × List Nat × List Nat :=
if k = 0 then ([], [], inds)
else (inds.take k, inds.drop (inds.length - k),
  (inds.drop k).take (inds.length - 2 * k))

/-- The stratified slices (family.py lines 3237-3252):
`interval_length = int(len(inds)/stratumNum)`; stratum 0 is `inds[:L]`,
the last stratum is `inds[L*(stratumNum-1):]`, middle strata are
`inds[L*i:L*(i+1)]`; each stratum is shuffled in place. -/
def strataOf (shuffle : List Nat → List Nat) (mid : List Nat) (stratumNum : Nat) :
    List (List Nat) :=
let L := mid.length / stratumNum
(List.range stratumNum).map (fun i =>
  if i = 0 then shuffle (mid.take L)
  else if i = stratumNum - 1 then shuffle (mid.drop (L * i))
  else shuffle ((mid.drop (L * i)).take L))

/-- One `for stratum in strata` pass of the batching loop (family.py lines
3255-3262): each nonempty stratum pops its last element into the current
batch; a batch reaching `maxBatchSize` is closed and a fresh empty one
started.  Returns the updated strata, the closed batches and the current
batch. -/
def passOnce (maxB : Nat) : List (List Nat) → List (List Nat) → List Nat →
    List (List Nat) × List (List Nat) × List Nat
| [], closed, cur => ([], closed, cur)
| st :: rest, closed, cur =>
  match st.getLast? with
  | none =>
    let out := passOnce maxB rest closed cur
    (st :: out.1, out.2.1, out.2.2)
  | some x =>
    let cur2 := cur ++ [x]
    if maxB ≤ cur2.length then
      let out := passOnce maxB rest (closed ++ [cur2]) []
      (st.dropLast :: out.1, out.2.1, out.2.2)
    else
      let out := passOnce maxB rest closed cur2
      (st.dropLast :: out.1, out.2.1, out.2.2)

/-- The `while any([len(stratum) != 0 for stratum in strata])` loop.  The
fuel bounds the number of passes; every pass over a not-all-empty stratum
set strictly shrinks the total stratum length, so any fuel of at least
that total drains the strata exactly as the Python loop does. -/
def batchWhile (maxB : Nat) : Nat → List (List Nat) → List (List Nat) → List Nat →
    List (List Nat)
| 0, _, closed, cur => closed ++ [cur]
| fuel + 1, strata, closed, cur =>
  if strata.all (fun st => st.isEmpty) then closed ++ [cur]
  else
    let out := passOnce maxB strata closed cur
    batchWhile maxB fuel out.1 out.2.1 out.2.2

/-- `KineticsFamily.getRxnBatches` on reaction indices: rank the reactions
by rate coefficient, seed the first batch with `highouts + lowouts`,
stratify the middle, fill batches round-robin from the shuffled strata,
and drop empty batches.  The final `rxns[inds]` step of the source is
index selection and is kept at the index level. -/
def getRxnBatchesIdx (shuffle : List Nat → List Nat) (ks : List ℚ)
    (maxB : Nat) (f : ℚ) (stratumNum : Nat) : List (List Nat) :=
let inds := argsortQ ks
let k := outlierNum f ks.length
let low := (splitOutliers inds k).1
let high := (splitOutliers inds k).2.1
let mid := (splitOutliers inds k).2.2
let strata := strataOf shuffle mid stratumNum
(batchWhile maxB ((strata.map List.length).sum + 1) strata [] (high ++ low)).filter
  (fun b => !b.isEmpty)

/-! # Theorems -/

/-! ## C2: `getReverse` is an involution -/

theorem reverseAction_reverseAction (a : Action) :
    reverseAction (reverseAction a) = a := by
  cases a <;> simp [reverseAction]

/-- C2: for every reaction recipe, `getReverse().getReverse()` is
action-wise identical to the original recipe: the same action names with
the same parameters in the same order. -/
theorem C2_getReverse_involutive (actions : List Action) :
    getReverse (getReverse actions) = actions := by
  simp [getReverse, List.map_map, Function.comp_def, reverseAction_reverseAction]

/-! ## C10: bond formation only accepts single or vdW orders -/

/-- C10: for every structure and every bond-formation step (`FORM_BOND`
applied forward or `BREAK_BOND` applied in reverse) whose centers resolve
and are not already bonded, a requested order other than 1 (single) or 0
(vdW) raises `InvalidAction`; and every successful bond-formation step
appends exactly one bond, of order 1 or 0, so a recipe can never directly
create a double, triple or aromatic bond. -/
theorem C10_formBond_single_or_vdw_only :
    (∀ (s : MStruct) (l1 l2 : String) (o : Int) (i1 i2 : Nat),
      resolvePair s l1 l2 = .ok (i1, i2) → hasBond s i1 i2 = false →
      o ≠ 1 → o ≠ 0 →
      applyActionStep s (.formBond l1 o l2) true
          = .error (.invalidAction "Attempted to create bond of invalid type.") ∧
      applyActionStep s (.breakBond l1 o l2) false
          = .error (.invalidAction "Attempted to create bond of invalid type.")) ∧
    (∀ (s : MStruct) (l1 l2 : String) (o : Int) (i1 i2 : Nat) (s2 : MStruct),
      resolvePair s l1 l2 = .ok (i1, i2) →
      (applyActionStep s (.formBond l1 o l2) true = .ok s2 ∨
       applyActionStep s (.breakBond l1 o l2) false = .ok s2) →
      (o = 1 ∨ o = 0) ∧ s2.bonds = s.bonds ++ [⟨i1, i2, (o : ℚ)⟩]) := by
  constructor
  · intro s l1 l2 o i1 i2 hres hnb h1 h0
    constructor <;>
      simp [applyActionStep, hres, formBondAt, hnb, h1, h0]
  · intro s l1 l2 o i1 i2 s2 hres hok
    have hform : formBondAt s i1 i2 o = .ok s2 := by
      rcases hok with h | h <;> simpa [applyActionStep, hres] using h
    unfold formBondAt at hform
    by_cases hb : hasBond s i1 i2
    · simp [hb] at hform
    · by_cases ho : o ≠ 1 ∧ o ≠ 0
      · simp [hb, ho] at hform
      · rcases Decidable.not_and_iff_or_not.mp ho with h | h
        · have h1 : o = 1 := by
            by_contra hc
            exact h hc
          refine ⟨Or.inl h1, ?_⟩
          simp [hb, ho] at hform
          simp [← hform]
        · have h0 : o = 0 := by
            by_contra hc
            exact h hc
          refine ⟨Or.inr h0, ?_⟩
          simp [hb, ho] at hform
          simp [← hform]

/-- Witness for C10 at the two-atom structure: forming a double bond
(order 2) between `*1` and `*2` raises `InvalidAction`, and forming the
single bond (order 1) succeeds and appends the order-1 bond. -/
theorem C10_formBond_single_or_vdw_only_witness :
    applyActionStep twoAtomStruct (.formBond "*1" 2 "*2") true
        = .error (.invalidAction "Attempted to create bond of invalid type.") ∧
    (((1 : Int) = 1 ∨ (1 : Int) = 0) ∧
      (⟨[⟨"*1", 0, 0⟩, ⟨"*2", 0, 0⟩], [⟨0, 1, 1⟩], true⟩ : MStruct).bonds
        = twoAtomStruct.bonds ++ [⟨0, 1, ((1 : Int) : ℚ)⟩]) :=
⟨(C10_formBond_single_or_vdw_only.1 twoAtomStruct "*1" "*2" 2 0 1 (by rfl) (by rfl)
    (by decide) (by decide)).1,
  C10_formBond_single_or_vdw_only.2 twoAtomStruct "*1" "*2" 1 0 1
    ⟨[⟨"*1", 0, 0⟩, ⟨"*2", 0, 0⟩], [⟨0, 1, 1⟩], true⟩ (by rfl) (Or.inl (by rfl))⟩

/-! ## C6: when recipe application raises InvalidAction -/

theorem resolvePair_invalidAction_iff (s : MStruct) (l1 l2 : String) :
    (∃ msg, resolvePair s l1 l2 = .error (.invalidAction msg)) ↔ bondPairInvalid s l1 l2 := by
  by_cases h : l1 = l2
  · subst h
    by_cases hlen : (labeledIdx s l1).length > 2
    · simp [resolvePair, bondPairInvalid, hlen]
    · rcases hl : labeledIdx s l1 with _ | ⟨i, _ | ⟨j, rest⟩⟩
      · simp [resolvePair, bondPairInvalid, hl]
      · simp [resolvePair, bondPairInvalid, hl]
      · rcases rest with _ | ⟨k, rest2⟩
        · by_cases hij : i = j
          · subst hij
            simp [resolvePair, bondPairInvalid, hl]
          · simp [resolvePair, bondPairInvalid, hl, hij, Ne.symm hij]
        · rw [hl] at hlen
          simp at hlen
  · rcases h1 : labeledIdx s l1 with _ | ⟨i1, t1⟩ <;>
      rcases h2 : labeledIdx s l2 with _ | ⟨i2, t2⟩
    · simp [resolvePair, bondPairInvalid, h, h1, h2]
    · simp [resolvePair, bondPairInvalid, h, h1, h2]
    · simp [resolvePair, bondPairInvalid, h, h1, h2]
    · by_cases hi : i1 = i2
      · subst hi
        simp [resolvePair, bondPairInvalid, h, h1, h2]
      · simp [resolvePair, bondPairInvalid, h, h1, h2, hi, Ne.symm hi]

theorem formBondAt_invalid_iff (s : MStruct) (i1 i2 : Nat) (o : Int) :
    (∃ msg, formBondAt s i1 i2 o = .error (.invalidAction msg)) ↔
      (hasBond s i1 i2 = true ∨ (o ≠ 1 ∧ o ≠ 0)) := by
  by_cases hb : hasBond s i1 i2
  · simp [formBondAt, hb]
  · by_cases ho : o ≠ 1 ∧ o ≠ 0
    · simp [formBondAt, hb, ho]
    · simp [formBondAt, hb, ho]

theorem breakBondAt_invalid_iff (s : MStruct) (i1 i2 : Nat) :
    (∃ msg, breakBondAt s i1 i2 = .error (.invalidAction msg)) ↔ hasBond s i1 i2 = false := by
  cases hk : bondIdxBetween s i1 i2 <;>
    simp [breakBondAt, hk, hasBond]

theorem changeBondAt_not_invalid (s : MStruct) (i1 i2 : Nat) (d : ℚ) (msg : String) :
    changeBondAt s i1 i2 d ≠ .error (.invalidAction msg) := by
  cases hk : bondIdxBetween s i1 i2 <;> simp [changeBondAt, hk]

theorem radicalStep_invalid_iff (s : MStruct) (l : String) (n : Int) (gain : Bool) :
    (∃ msg, radicalStep s l n gain = .error (.invalidAction msg)) ↔ labeledIdx s l = [] := by
  by_cases h : labeledIdx s l = [] <;> simp [radicalStep, h]

theorem pairStep_invalid_iff (s : MStruct) (l : String) (n : Int) (gain : Bool) :
    (∃ msg, pairStep s l n gain = .error (.invalidAction msg)) ↔ labeledIdx s l = [] := by
  by_cases h : labeledIdx s l = [] <;> simp [pairStep, h]

theorem resolvePair_ok_not_invalid (s : MStruct) (l1 l2 : String) (i1 i2 : Nat)
    (hres : resolvePair s l1 l2 = .ok (i1, i2)) : ¬ bondPairInvalid s l1 l2 := by
  intro hcond
  obtain ⟨msg, hmsg⟩ := (resolvePair_invalidAction_iff s l1 l2).mpr hcond
  rw [hres] at hmsg
  exact Except.noConfusion hmsg

/-- C6 counterexample: on the two-atom structure (labels `*1`, `*2`
present, no bond between them) the forward `FORM_BOND` step of order 2
raises `InvalidAction`, although no referenced label is missing, no bond to
be created already exists, and no bond removal is attempted — so the three
listed conditions are not exhaustive. -/
theorem C6_counterexample :
    applyActionStep twoAtomStruct (.formBond "*1" 2 "*2") true
        = .error (.invalidAction "Attempted to create bond of invalid type.") ∧
    labeledIdx twoAtomStruct "*1" = [0] ∧
    labeledIdx twoAtomStruct "*2" = [1] ∧
    hasBond twoAtomStruct 0 1 = false := by
  refine ⟨rfl, rfl, rfl, rfl⟩

/-- C6 (amended): recipe application raises `InvalidAction` exactly when a
referenced atom label is missing from the working graph, the referenced
labels fail to resolve to two distinct atoms (a shared label carried by
more than two atoms, or coincident centers), a bond to be created already
exists, a bond is formed with an order other than single or vdW, or a bond
to be removed does not exist; and such a failure is fatal only for the
current candidate mapping: the failing mapping yields no product
structures while the remaining mappings are still processed. -/
theorem C6_invalidAction_conditions :
    (∀ (s : MStruct) (a : Action) (fwd : Bool),
        (∃ msg, applyActionStep s a fwd = .error (.invalidAction msg)) ↔
          invalidActionCond s a fwd) ∧
    (∀ (gen : Nat → Except ApplyErr MStruct) (pre post : List Nat) (m : Nat) (msg : String),
        gen m = .error (.invalidAction msg) →
        mappingLoop gen (pre ++ m :: post) = mappingLoop gen (pre ++ post)) := by
  constructor
  · intro s a fwd
    cases a with
    | changeBond l1 o l2 =>
      show (∃ msg, applyActionStep s (.changeBond l1 o l2) fwd
          = .error (.invalidAction msg)) ↔ bondPairInvalid s l1 l2
      rw [← resolvePair_invalidAction_iff]
      cases hres : resolvePair s l1 l2 with
      | error e =>
        simp [applyActionStep, hres]
      | ok p =>
        obtain ⟨i1, i2⟩ := p
        simp only [applyActionStep, hres]
        constructor
        · rintro ⟨msg, hmsg⟩
          exact absurd hmsg (changeBondAt_not_invalid s i1 i2 _ msg)
        · rintro ⟨msg, hmsg⟩
          exact Except.noConfusion hmsg
    | formBond l1 o l2 =>
      cases hres : resolvePair s l1 l2 with
      | error e =>
        simp only [applyActionStep, hres, invalidActionCond]
        rw [← resolvePair_invalidAction_iff]
        simp [hres]
      | ok p =>
        obtain ⟨i1, i2⟩ := p
        have hnotpair := resolvePair_ok_not_invalid s l1 l2 i1 i2 hres
        simp only [applyActionStep, hres, invalidActionCond]
        cases fwd with
        | true =>
          simp [formBondAt_invalid_iff, hres, hnotpair]
          exact ⟨fun h => ⟨i1, i2, ⟨rfl, rfl⟩, h⟩,
            by rintro ⟨a, b, ⟨rfl, rfl⟩, h⟩; exact h⟩
        | false =>
          simp [breakBondAt_invalid_iff, hres, hnotpair]
          exact ⟨fun h => ⟨i1, i2, ⟨rfl, rfl⟩, h⟩,
            by rintro ⟨a, b, ⟨rfl, rfl⟩, h⟩; exact h⟩
    | breakBond l1 o l2 =>
      cases hres : resolvePair s l1 l2 with
      | error e =>
        simp only [applyActionStep, hres, invalidActionCond]
        rw [← resolvePair_invalidAction_iff]
        simp [hres]
      | ok p =>
        obtain ⟨i1, i2⟩ := p
        have hnotpair := resolvePair_ok_not_invalid s l1 l2 i1 i2 hres
        simp only [applyActionStep, hres, invalidActionCond]
        cases fwd with
        | true =>
          simp [breakBondAt_invalid_iff, hres, hnotpair]
          exact ⟨fun h => ⟨i1, i2, ⟨rfl, rfl⟩, h⟩,
            by rintro ⟨a, b, ⟨rfl, rfl⟩, h⟩; exact h⟩
        | false =>
          simp [formBondAt_invalid_iff, hres, hnotpair]
          exact ⟨fun h => ⟨i1, i2, ⟨rfl, rfl⟩, h⟩,
            by rintro ⟨a, b, ⟨rfl, rfl⟩, h⟩; exact h⟩
    | gainRadical l n =>
      simpa only [applyActionStep, invalidActionCond] using radicalStep_invalid_iff s l n fwd
    | loseRadical l n =>
      simpa only [applyActionStep, invalidActionCond] using radicalStep_invalid_iff s l n (!fwd)
    | gainPair l n =>
      simpa only [applyActionStep, invalidActionCond] using pairStep_invalid_iff s l n fwd
    | losePair l n =>
      simpa only [applyActionStep, invalidActionCond] using pairStep_invalid_iff s l n (!fwd)
  · intro gen pre post m msg h
    induction pre with
    | nil =>
      simp only [List.nil_append, mappingLoop, h, catchInvalid]
    | cons p pre ih =>
      cases hcp : catchInvalid (gen p) with
      | error e => simp [mappingLoop, hcp]
      | ok o =>
        cases o with
        | none => simpa [mappingLoop, hcp] using ih
        | some q => simp [mappingLoop, hcp, ih]

/-- Witness for C6: a mapping whose recipe application raises
`InvalidAction` is skipped while the rest of the mapping list is still
processed. -/
theorem C6_invalidAction_conditions_witness :
    mappingLoop (fun _ => (.error (.invalidAction "x") : Except ApplyErr MStruct))
        ([0] ++ 2 :: [1])
      = mappingLoop (fun _ => (.error (.invalidAction "x") : Except ApplyErr MStruct))
        ([0] ++ [1]) :=
C6_invalidAction_conditions.2 (fun _ => .error (.invalidAction "x")) [0] [1] 2 "x" rfl

/-! ## C5: product-count mismatch is a silent non-match -/

/-- C5: whenever the number of split product components differs from the
template's declared product count, the `applyRecipe` pipeline returns
`None` — the candidate is discarded as a template non-match.  The
embedded stage is a total function into `Option`: the source branch
(family.py lines 1478-1488) contains no raise statement, only
`return None`. -/
theorem C5_product_count_mismatch_returns_none
    (reactantCharges productCharges : List Int) (productNum : Nat) (isMolecule : Bool)
    (h : productNum ≠ productCharges.length) :
    applyRecipeSplitStage reactantCharges productCharges productNum isMolecule = none := by
  simp [applyRecipeSplitStage, h]

/-- Witness for C5: a template expecting two products discards a candidate
that split into one component. -/
theorem C5_product_count_mismatch_returns_none_witness :
    applyRecipeSplitStage [0] [0] 2 true = none :=
C5_product_count_mismatch_returns_none [0] [0] 2 true (by decide)

/-! ## C3: the net-charge conservation check reads a stale variable -/

/-- C3: evaluation of the `applyRecipe` charge stage at the failing input.
A single neutral reactant (`Group` case) splitting into two products of
net charges 1 and 0 is accepted, although the summed net charge changes
from 0 to 1: the product-side accumulator adds the stale reactant loop
variable `struc` (the last reactant, charge 0) once per product instead of
the product charges, so the comparison `0 = 2 × 0` passes. -/
theorem C3_charge_check_stale_variable :
    applyRecipeSplitStage [0] [1, 0] 2 false = some [1, 0] ∧
    ([0] : List Int).sum ≠ ([1, 0] : List Int).sum := by
  constructor
  · rfl
  · decide

/-! ## C1: `_splitReactions` and `extendNode` partition the reactions -/

theorem splitReactionsAux_fst {R : Type} (m : R → Bool) (l : List R) :
    ∀ i, (splitReactionsAux m i l).1 = l.filter m := by
  induction l with
  | nil => intro i; rfl
  | cons r rest ih =>
    intro i
    by_cases h : m r <;> simp [splitReactionsAux, List.filter_cons, h, ih]

theorem splitReactionsAux_snd {R : Type} (m : R → Bool) (l : List R) :
    ∀ i, (splitReactionsAux m i l).2.1 = l.filter (fun r => !(m r)) := by
  induction l with
  | nil => intro i; rfl
  | cons r rest ih =>
    intro i
    by_cases h : m r <;> simp [splitReactionsAux, List.filter_cons, h, ih]

theorem splitReactionsAux_inds_ge {R : Type} (m : R → Bool) (l : List R) :
    ∀ i, ∀ j ∈ (splitReactionsAux m i l).2.2, i ≤ j := by
  induction l with
  | nil => intro i j hj; simp [splitReactionsAux] at hj
  | cons r rest ih =>
    intro i j hj
    by_cases h : m r
    · simp only [splitReactionsAux, h, if_true, List.mem_cons] at hj
      rcases hj with rfl | hj
      · exact Nat.le_refl j
      · exact Nat.le_of_succ_le (ih (i + 1) j hj)
    · simp only [splitReactionsAux, h, if_false, Bool.false_eq_true] at hj
      exact Nat.le_of_succ_le (ih (i + 1) j hj)

theorem selectByIndsAux_split {R : Type} (m : R → Bool) (l : List R) :
    ∀ (i : Nat) (extra : List Nat), (∀ j ∈ extra, j < i) →
    selectByIndsAux (extra ++ (splitReactionsAux m i l).2.2) i l
      = ((splitReactionsAux m i l).1, (splitReactionsAux m i l).2.1) := by
  induction l with
  | nil => intro i extra hex; rfl
  | cons r rest ih =>
    intro i extra hex
    by_cases h : m r
    · have hc : (extra ++ i :: (splitReactionsAux m (i + 1) rest).2.2).contains i = true := by
        simp
      have hrw : extra ++ i :: (splitReactionsAux m (i + 1) rest).2.2
          = (extra ++ [i]) ++ (splitReactionsAux m (i + 1) rest).2.2 := by
        simp
      have hex2 : ∀ j ∈ extra ++ [i], j < i + 1 := by
        intro j hj
        rcases List.mem_append.mp hj with hj | hj
        · exact Nat.lt_succ_of_lt (hex j hj)
        · simp at hj
          omega
      have hc2 : ((extra ++ [i]) ++ (splitReactionsAux m (i + 1) rest).2.2).contains i
          = true := by
        simp
      simp only [splitReactionsAux, h, if_true, selectByIndsAux, hrw, ih (i + 1)
        (extra ++ [i]) hex2, hc2]
    · have hni1 : i ∉ extra := fun hj => Nat.lt_irrefl i (hex i hj)
      have hni2 : i ∉ (splitReactionsAux m (i + 1) rest).2.2 := by
        intro hj
        have := splitReactionsAux_inds_ge m rest (i + 1) i hj
        omega
      have hc : (extra ++ (splitReactionsAux m (i + 1) rest).2.2).contains i = false := by
        simp [hni1, hni2]
      simp only [splitReactionsAux, h, if_false, Bool.false_eq_true, selectByIndsAux, hc,
        ih (i + 1) extra (fun j hj => Nat.lt_succ_of_lt (hex j hj))]

/-- C1: the `extendNode` splitting step distributes the parent's reaction
list without duplication or loss: `_splitReactions` sends exactly the
reactions whose merged reactant graph matches the extension group to the
new child and all others to the complement; the index-based re-partition
`new_entries`/`comp_entries` agrees with it; the two parts are disjoint
(characterized by the match bit) and their concatenation is a permutation
of the parent's reaction list; and the `templateRxnMap` update hands the
matching reactions to the new child entry and the remainder to the
complement sibling (when one exists) or back to the parent, so the
children's reaction sets partition the parent's set. -/
theorem C1_extendNode_partitions_reactions {R : Type} (mtch : R → Bool) (rxns : List R) :
    (splitReactions mtch rxns).1 = rxns.filter mtch ∧
    (splitReactions mtch rxns).2.1 = rxns.filter (fun r => !(mtch r)) ∧
    selectByInds rxns (splitReactions mtch rxns).2.2
      = ((splitReactions mtch rxns).1, (splitReactions mtch rxns).2.1) ∧
    ((splitReactions mtch rxns).1 ++ (splitReactions mtch rxns).2.1).Perm rxns ∧
    (∀ r ∈ (splitReactions mtch rxns).1, mtch r = true) ∧
    (∀ r ∈ (splitReactions mtch rxns).2.1, mtch r = false) ∧
    (∀ complement : Bool,
      ((extendNodeMapUpdate complement mtch rxns).1 ++
        ((extendNodeMapUpdate complement mtch rxns).2.1 ++
          (extendNodeMapUpdate complement mtch rxns).2.2)).Perm rxns) := by
  have hfst := splitReactionsAux_fst mtch rxns 0
  have hsnd := splitReactionsAux_snd mtch rxns 0
  have hperm : ((splitReactions mtch rxns).1 ++ (splitReactions mtch rxns).2.1).Perm rxns := by
    rw [splitReactions, hfst, hsnd]
    exact List.filter_append_perm mtch rxns
  refine ⟨hfst, hsnd, ?_, hperm, ?_, ?_, ?_⟩
  · exact selectByIndsAux_split mtch rxns 0 [] (by simp)
  · intro r hr
    rw [splitReactions, hfst] at hr
    exact (List.mem_filter.mp hr).2
  · intro r hr
    rw [splitReactions, hsnd] at hr
    simpa using (List.mem_filter.mp hr).2
  · intro complement
    cases complement <;>
      simpa [extendNodeMapUpdate] using hperm

/-! ## C4: reverse-match counting in `addReverseAttribute` -/

/-- C4 counterexample: with two reverse matches that are mutually
isomorphic, `addReverseAttribute` succeeds (returns the first match as
the reverse reaction) instead of raising `KineticsError`, so "zero or
multiple matches raises KineticsError" fails for multiple mutually
isomorphic matches. -/
theorem C4_counterexample :
    addReverseAttributeModel (R := Nat) (fun _ _ => true) (fun _ _ => true) [0, 1] []
        = .success 0 ∧ ([0, 1] : List Nat).length > 1 := by
  constructor
  · rfl
  · decide

/-- C4 (amended): for a self-reverse family the generator re-invokes
generation on the product side and requires an isomorphism-unique reverse
match: zero matches raise `KineticsError` unless the retry with a
temporarily emptied forbidden list finds exactly one match or several
mutually isomorphic ones, in which case the forward reaction is rejected
without error; more than one match raises `KineticsError` exactly when the
matches are not all isomorphic to the first; otherwise the first match is
recorded as the reverse reaction. -/
theorem C4_reverse_match_outcomes {R : Type} (isoStrict isoLoose : R → R → Bool)
    (normal retry : List R) :
    (addReverseAttributeModel isoStrict isoLoose normal retry = .kineticsError ↔
      ((normal = [] ∧
          ¬(retry.length = 1 ∨ (retry.length > 1 ∧ allIsoToFirst isoStrict retry = true))) ∨
        (normal.length > 1 ∧ allIsoToFirst isoLoose normal = false))) ∧
    (addReverseAttributeModel isoStrict isoLoose normal retry = .rejected ↔
      (normal = [] ∧
        (retry.length = 1 ∨ (retry.length > 1 ∧ allIsoToFirst isoStrict retry = true)))) ∧
    (∀ r0, addReverseAttributeModel isoStrict isoLoose normal retry = .success r0 ↔
      (normal.head? = some r0 ∧
        (normal.length ≤ 1 ∨ allIsoToFirst isoLoose normal = true))) := by
  cases normal with
  | nil =>
    by_cases hre : retry.length = 1 ∨ (retry.length > 1 ∧ allIsoToFirst isoStrict retry = true)
    · simp [addReverseAttributeModel, hre]
    · simp [addReverseAttributeModel, hre]
  | cons r rest =>
    by_cases hmul : (r :: rest).length > 1 ∧ allIsoToFirst isoLoose (r :: rest) = false
    · have hlen : ¬((r :: rest).length ≤ 1) := by
        have := hmul.1
        omega
      simp only [addReverseAttributeModel, hmul, if_true]
      refine ⟨by simp [hmul], by simp, ?_⟩
      intro r0
      simp only [List.head?_cons]
      constructor
      · intro hcontr
        exact absurd hcontr (by simp)
      · rintro ⟨hr0, h1 | h2⟩
        · exact absurd h1 hlen
        · exact absurd h2 (by simp)

    · have hside : (r :: rest).length ≤ 1 ∨ allIsoToFirst isoLoose (r :: rest) = true := by
        rcases Decidable.not_and_iff_or_not.mp hmul with h | h
        · left
          omega
        · right
          cases hb : allIsoToFirst isoLoose (r :: rest) with
          | false => exact absurd hb h
          | true => rfl
      have hred : addReverseAttributeModel isoStrict isoLoose (r :: rest) retry
          = .success r := by
        simp only [addReverseAttributeModel]
        exact if_neg hmul
      refine ⟨?_, ?_, ?_⟩
      · rw [hred]
        simp [hmul]
        intro hlen
        rcases hside with h1 | h2
        · have hz : rest.length = 0 := by simpa using h1
          omega
        · exact h2
      · rw [hred]
        simp
      · intro r0
        rw [hred]
        simp only [List.head?_cons]
        constructor
        · intro hsucc
          have hrr : r = r0 := by
            simpa using hsucc
          exact ⟨by simp [hrr], hside⟩
        · rintro ⟨hr0, _⟩
          have hrr : r = r0 := by
            simpa using hr0
          simp [hrr]

/-! ## C7: repeated extension failures clear-and-retry without a fatal error -/

/-- C7 counterexample: a node at which the extension search keeps returning
no refinement while the reactions are not all identical is cleared and
retried on every pass — after the second consecutive failure the loop is
still in the clear-and-retry state (three clears after three passes) and
no error outcome exists on this code path, where the claim demands a fatal
`KineticsError`-class condition on the second failure. -/
theorem C7_counterexample :
    growNodeLoop (G := Unit) (R := Nat) (E := Unit) (fun _ => []) id (fun _ _ => false)
        [0, 1] 3 0 () = .stillRetrying 3 ∧
    existsNonIdenticalPair (fun _ _ => false) ([0, 1] : List Nat) = true := by
  constructor
  · rfl
  · rfl

/-- C7 (amended): when extension search at a node yields no refinement,
`extendNode` marks the node terminal exactly when its reactions are
pairwise identical (the `makeTreeNodes` scan then skips it); otherwise it
clears the node's recorded regularization bounds and signals a retry, and
it does so again on every subsequent failure — repeated failures repeat
the clear-and-retry without any fatal error being raised. -/
theorem C7_extension_failure_handling {G R E : Type} (getExts : G → List E) (clear : G → G)
    (same : R → R → Bool) (rs : List R) (g : G) :
    (existsNonIdenticalPair same rs = false ↔
      List.Pairwise (fun a b => same b a = true) rs) ∧
    ((∀ g2, getExts g2 = []) → existsNonIdenticalPair same rs = true →
      ∀ fuel clears, growNodeLoop getExts clear same rs fuel clears g
        = .stillRetrying (clears + fuel)) ∧
    (getExts g = [] → existsNonIdenticalPair same rs = false →
      ∀ fuel clears, growNodeLoop getExts clear same rs (fuel + 1) clears g
        = .terminal clears) ∧
    (∀ (completed : List Nat) (lbl : Nat) (nrxns : Nat),
      shouldVisit (completed ++ [lbl]) lbl nrxns = false) := by
  refine ⟨?_, ?_, ?_, ?_⟩
  · induction rs with
    | nil => simp [existsNonIdenticalPair]
    | cons r rest ih =>
      simp [existsNonIdenticalPair, List.pairwise_cons, ih]
  · intro hexts hpair fuel
    induction fuel generalizing g with
    | zero => intro clears; simp [growNodeLoop]
    | succ fuel ih =>
      intro clears
      rw [growNodeLoop, hexts g]
      simp only [hpair, if_true]
      rw [ih (clear g) (clears + 1)]
      congr 1
      omega
  · intro hexts hpair fuel clears
    rw [growNodeLoop, hexts]
    simp [hpair]
  · intro completed lbl nrxns
    simp [shouldVisit]

/-- Witness for C7: with a constant-empty extension search and two
differing reactions, three passes produce three clears and no terminal or
extended outcome; with identical reactions the node is terminal at once;
a marked node is skipped by the scan. -/
theorem C7_extension_failure_handling_witness :
    growNodeLoop (G := Unit) (R := Nat) (E := Unit) (fun _ => []) id (fun _ _ => false)
        [5, 6] 2 1 () = .stillRetrying 3 ∧
    growNodeLoop (G := Unit) (R := Nat) (E := Unit) (fun _ => []) id (fun _ _ => true)
        [5, 6] 4 0 () = .terminal 0 ∧
    shouldVisit ([2] ++ [7]) 7 9 = false :=
⟨(C7_extension_failure_handling (fun _ => []) id (fun _ _ => false) [5, 6] ()).2.1
    (fun _ => rfl) rfl 2 1,
  (C7_extension_failure_handling (fun _ => []) id (fun _ _ => true) [5, 6] ()).2.2.1
    rfl rfl 3 0,
  (C7_extension_failure_handling (G := Unit) (R := Nat) (E := Unit) (fun _ => []) id
    (fun _ _ => true) [5, 6] ()).2.2.2 [2] 7 9⟩

/-! ## C9: the single-reaction uncertainty default -/

/-- C9 counterexample: with one training reaction the uncertainty variance
recorded by `_makeRule` is `(log(fmax)/2)^2` (here `25` for
`lnfmax = 10`) whatever the reaction's data-quality rank — ranks 3 and 7
give the same nonzero variance, so no proportionality constant relating
the default magnitude to the rank can exist. -/
theorem C9_counterexample :
    uncVar (makeRuleUncertainty (fun r => (r : ℚ)) 10 1000 [0] [3]) = 25 ∧
    uncVar (makeRuleUncertainty (fun r => (r : ℚ)) 10 1000 [0] [7]) = 25 ∧
    ¬(∃ c : ℚ, ∀ rank : Nat,
        uncVar (makeRuleUncertainty (fun r => (r : ℚ)) 10 1000 [0] [rank]) = c * rank) := by
  refine ⟨by norm_num [makeRuleUncertainty, uncVar], by norm_num [makeRuleUncertainty, uncVar], ?_⟩
  rintro ⟨c, h⟩
  have h1 := h 1
  have h2 := h 2
  norm_num [makeRuleUncertainty, uncVar] at h1 h2
  rw [← h1] at h2
  norm_num at h2

/-- C9 (amended): when a node's rule is fitted from exactly one training
reaction the recorded uncertainty is the fixed default
`RateUncertainty(mu=0, var=(log(fmax)/2)^2, N=1)`, independent of that
reaction's data-quality rank and of its fit residual; only for N ≥ 2 is
the leave-one-out inverse-variance weighting used, with weights derived
from the rank-accuracy variances — in particular two reactions of equal
rank receive equal weights and the recorded mean is the plain average of
the two leave-one-out log-deviations. -/
theorem C9_single_reaction_default (rankAccuracy : Nat → ℚ) (lnfmax Tref d1 d2 : ℚ)
    (dlnk : ℚ) (rank r1 : Nat) (ha : rankAccuracy r1 ≠ 0) (hT : Tref ≠ 0) :
    makeRuleUncertainty rankAccuracy lnfmax Tref [dlnk] [rank]
        = some ⟨0, (lnfmax / 2) ^ 2, 1⟩ ∧
    (makeRuleUncertainty rankAccuracy lnfmax Tref [d1, d2] [r1, r1]).map
        RateUncertaintyM.mu = some ((d1 + d2) / 2) := by
  constructor
  · rfl
  · have hv : (rankAccuracy r1 / (2 * gasR * Tref)) ^ 2 ≠ 0 := by
      have hgas : (2 : ℚ) * gasR * Tref ≠ 0 := by
        have : gasR ≠ 0 := by norm_num [gasR]
        exact mul_ne_zero (mul_ne_zero two_ne_zero this) hT
      exact pow_ne_zero 2 (div_ne_zero ha hgas)
    simp only [makeRuleUncertainty, makeRuleVaris, weightedUncertainty, List.length_cons,
      List.length_nil, List.map_cons, List.map_nil, List.zip_cons_cons, List.zip_nil_right,
      List.sum_cons, List.sum_nil, Option.map_some]
    have hg : gasR ≠ 0 := by norm_num [gasR]
    norm_num
    field_simp
    ring

/-- Witness for C9: with two equal-rank reactions the recorded mean is the
plain average of the two leave-one-out deviations, and a single reaction
receives the fixed default uncertainty. -/
theorem C9_single_reaction_default_witness :
    makeRuleUncertainty (fun _ => 1) 7 1 [4] [2] = some ⟨0, (7 / 2 : ℚ) ^ 2, 1⟩ ∧
    (makeRuleUncertainty (fun _ => 1) 7 1 [1, 3] [2, 2]).map RateUncertaintyM.mu
      = some (((1 : ℚ) + 3) / 2) :=
⟨(C9_single_reaction_default (fun _ => 1) 7 1 1 3 4 2 2 one_ne_zero one_ne_zero).1,
  (C9_single_reaction_default (fun _ => 1) 7 1 1 3 4 2 2 one_ne_zero one_ne_zero).2⟩

/- ------------------- argsort lemmas ------------------- -/

theorem insertIdx_perm (ks : List ℚ) (i : Nat) (l : List Nat) :
    (insertIdx ks i l).Perm (i :: l) := by
  induction l with
  | nil => exact List.Perm.refl _
  | cons j rest ih =>
    by_cases h : ks.getD i 0 < ks.getD j 0
    · simp only [insertIdx]
      rw [if_pos h]
    · simp only [insertIdx, h, if_false]
      exact ((ih.cons j).trans (List.Perm.swap i j rest))

theorem argsortQ_perm (ks : List ℚ) : (argsortQ ks).Perm (List.range ks.length) := by
  unfold argsortQ
  generalize List.range ks.length = l
  induction l with
  | nil => exact List.Perm.refl _
  | cons x xs ih =>
    simp only [List.foldr_cons]
    exact (insertIdx_perm ks x _).trans (ih.cons x)

theorem insertIdx_sorted (ks : List ℚ) (i : Nat) (l : List Nat)
    (h : List.Pairwise (fun a b => ks.getD a 0 ≤ ks.getD b 0) l) :
    List.Pairwise (fun a b => ks.getD a 0 ≤ ks.getD b 0) (insertIdx ks i l) := by
  induction l with
  | nil => simp [insertIdx]
  | cons j rest ih =>
    rcases List.pairwise_cons.mp h with ⟨hj, hrest⟩
    by_cases hc : ks.getD i 0 < ks.getD j 0
    · simp only [insertIdx, hc, if_true]
      refine List.pairwise_cons.mpr ⟨?_, h⟩
      intro b hb
      rcases List.mem_cons.mp hb with rfl | hb
      · exact le_of_lt hc
      · exact le_trans (le_of_lt hc) (hj b hb)
    · simp only [insertIdx, hc, if_false]
      refine List.pairwise_cons.mpr ⟨?_, ih hrest⟩
      intro b hb
      have hb2 := (insertIdx_perm ks i rest).mem_iff.mp hb
      rcases List.mem_cons.mp hb2 with rfl | hb2
      · exact le_of_not_lt hc
      · exact hj b hb2

theorem argsortQ_sorted (ks : List ℚ) :
    List.Pairwise (fun a b => ks.getD a 0 ≤ ks.getD b 0) (argsortQ ks) := by
  unfold argsortQ
  generalize List.range ks.length = l
  induction l with
  | nil => simp
  | cons x xs ih =>
    simp only [List.foldr_cons]
    exact insertIdx_sorted ks x _ ih



theorem splitOutliers_concat (inds : List Nat) (k : Nat) (hk : 2 * k ≤ inds.length) :
    (splitOutliers inds k).1 ++ (splitOutliers inds k).2.2 ++ (splitOutliers inds k).2.1
      = inds := by
  by_cases h0 : k = 0
  · simp [splitOutliers, h0]
  · simp only [splitOutliers, h0, if_false]
    have h1 : (inds.drop k).take (inds.length - 2 * k) ++ inds.drop (inds.length - k)
        = inds.drop k := by
      have hdd : (inds.drop k).drop (inds.length - 2 * k) = inds.drop (inds.length - k) := by
        rw [List.drop_drop]
        congr 1
        omega
      rw [← hdd]
      exact List.take_append_drop _ _
    rw [List.append_assoc, h1, List.take_append_drop]

theorem splitOutliers_low_len (inds : List Nat) (k : Nat) (hk : 2 * k ≤ inds.length) :
    (splitOutliers inds k).1.length = k := by
  by_cases h0 : k = 0
  · simp [splitOutliers, h0]
  · simp only [splitOutliers, h0, if_false]
    simp only [List.length_take]
    omega

theorem splitOutliers_high_len (inds : List Nat) (k : Nat) (hk : 2 * k ≤ inds.length) :
    (splitOutliers inds k).2.1.length = k := by
  by_cases h0 : k = 0
  · simp [splitOutliers, h0]
  · simp only [splitOutliers, h0, if_false]
    simp only [List.length_drop]
    omega



theorem flatten_map_shuffle_perm (shuffle : List Nat → List Nat)
    (hshuf : ∀ l, (shuffle l).Perm l) (ls : List (List Nat)) :
    ((ls.map shuffle).flatten).Perm ls.flatten := by
  induction ls with
  | nil => exact List.Perm.refl _
  | cons l rest ih =>
    simp only [List.map_cons, List.flatten_cons]
    exact (hshuf l).append ih

theorem slices_concat (mid : List Nat) (L : Nat) :
    ∀ (m j : Nat),
      (((List.range m).map (fun i => (mid.drop (L * (j + i))).take L)).flatten)
          ++ mid.drop (L * (j + m))
        = mid.drop (L * j) := by
  intro m
  induction m with
  | zero => intro j; simp
  | succ m ih =>
    intro j
    rw [List.range_succ_eq_map]
    simp only [List.map_cons, List.map_map, List.flatten_cons, Nat.add_zero]
    have hcomp : ((fun i => (mid.drop (L * (j + i))).take L) ∘ Nat.succ)
        = fun i => (mid.drop (L * ((j + 1) + i))).take L := by
      funext i
      have hji : j + Nat.succ i = j + 1 + i := by omega
      simp only [Function.comp_apply, hji]
    rw [hcomp, List.append_assoc]
    have hj1 : j + (m + 1) = (j + 1) + m := by omega
    rw [hj1, ih (j + 1)]
    have hdd : mid.drop (L * (j + 1)) = (mid.drop (L * j)).drop L := by
      rw [List.drop_drop]
      congr 1
    rw [hdd, List.take_append_drop]

theorem strataOf_flatten (shuffle : List Nat → List Nat)
    (hshuf : ∀ l, (shuffle l).Perm l) (mid : List Nat) (s : Nat) (hs : 1 ≤ s) :
    ((strataOf shuffle mid s).flatten).Perm mid := by
  unfold strataOf
  have hperm := flatten_map_shuffle_perm shuffle hshuf
    ((List.range s).map (fun i =>
      if i = 0 then mid.take (mid.length / s)
      else if i = s - 1 then mid.drop ((mid.length / s) * i)
      else ((mid.drop ((mid.length / s) * i)).take (mid.length / s))))
  have hpush : (List.range s).map (fun i =>
      if i = 0 then shuffle (mid.take (mid.length / s))
      else if i = s - 1 then shuffle (mid.drop ((mid.length / s) * i))
      else shuffle ((mid.drop ((mid.length / s) * i)).take (mid.length / s)))
      = ((List.range s).map (fun i =>
        if i = 0 then mid.take (mid.length / s)
        else if i = s - 1 then mid.drop ((mid.length / s) * i)
        else ((mid.drop ((mid.length / s) * i)).take (mid.length / s)))).map shuffle := by
    rw [List.map_map]
    refine List.map_congr_left ?_
    intro i _
    by_cases h0 : i = 0
    · simp [h0]
    · by_cases h1 : i = s - 1 <;> simp [h0, h1, apply_ite shuffle]
  refine (hpush ▸ hperm).trans ?_
  -- now the raw (unshuffled) slices
  set L := mid.length / s with hL
  obtain ⟨m, rfl⟩ : ∃ m, s = m + 1 := ⟨s - 1, by omega⟩
  have hraw : (List.range (m + 1)).map (fun i =>
      if i = 0 then mid.take L
      else if i = m + 1 - 1 then mid.drop (L * i)
      else ((mid.drop (L * i)).take L))
      = ((List.range m).map (fun i => (mid.drop (L * (0 + i))).take L))
        ++ [mid.drop (L * (0 + m))] := by
    rw [List.range_succ, List.map_append]
    congr 1
    · refine List.map_congr_left ?_
      intro i hi
      have him : i < m := List.mem_range.mp hi
      by_cases h0 : i = 0
      · subst h0
        simp
      · have h1 : i ≠ m + 1 - 1 := by omega
        simp only [h0, h1, if_false, Nat.zero_add]
    · simp only [List.map_cons, List.map_nil, Nat.zero_add]
      have h1 : m = m + 1 - 1 := by omega
      by_cases h0 : m = 0
      · subst h0
        have hLlen : L = mid.length := by rw [hL]; simp
        simp [hLlen]
      · rw [← h1]
        simp [h0]
  rw [hraw]
  rw [List.flatten_append]
  simp only [List.flatten_cons, List.flatten_nil, List.append_nil]
  rw [slices_concat mid L m 0]
  simp



theorem dropLast_getLast?_append (st : List Nat) (x : Nat) (h : st.getLast? = some x) :
    st.dropLast ++ [x] = st :=
List.dropLast_append_getLast? x h

theorem passOnce_elems (maxB : Nat) (strata closed : List (List Nat)) (cur : List Nat) :
    ((passOnce maxB strata closed cur).1.flatten : Multiset Nat)
        + ((passOnce maxB strata closed cur).2.1.flatten : Multiset Nat)
        + ((passOnce maxB strata closed cur).2.2 : Multiset Nat)
      = (strata.flatten : Multiset Nat) + (closed.flatten : Multiset Nat)
        + (cur : Multiset Nat) := by
  induction strata generalizing closed cur with
  | nil => simp [passOnce]
  | cons st rest ih =>
    cases hl : st.getLast? with
    | none =>
      have hst : st = [] := List.getLast?_eq_none_iff.mp hl
      subst hst
      simp only [passOnce, List.flatten_cons, List.nil_append]
      exact ih closed cur
    | some x =>
      have hst : st.dropLast ++ [x] = st := dropLast_getLast?_append st x hl
      have cmul : ∀ (a b : List Nat), ((a ++ b : List Nat) : Multiset Nat)
          = (a : Multiset Nat) + (b : Multiset Nat) := fun a b => by simp
      by_cases hble : maxB ≤ (cur ++ [x]).length
      · have h := ih (closed ++ [cur ++ [x]]) []
        simp only [passOnce, hl, hble, if_true, List.flatten_cons]
        calc ((st.dropLast ++ (passOnce maxB rest (closed ++ [cur ++ [x]]) []).1.flatten
                : List Nat) : Multiset Nat)
              + ((passOnce maxB rest (closed ++ [cur ++ [x]]) []).2.1.flatten : Multiset Nat)
              + ((passOnce maxB rest (closed ++ [cur ++ [x]]) []).2.2 : Multiset Nat)
            = (st.dropLast : Multiset Nat)
              + (((passOnce maxB rest (closed ++ [cur ++ [x]]) []).1.flatten : Multiset Nat)
                + ((passOnce maxB rest (closed ++ [cur ++ [x]]) []).2.1.flatten : Multiset Nat)
                + ((passOnce maxB rest (closed ++ [cur ++ [x]]) []).2.2 : Multiset Nat)) := by
              rw [cmul]
              abel
          _ = (st.dropLast : Multiset Nat)
              + ((rest.flatten : Multiset Nat)
                + ((closed ++ [cur ++ [x]]).flatten : Multiset Nat)
                + (([] : List Nat) : Multiset Nat)) := by rw [h]
          _ = ((st ++ rest.flatten : List Nat) : Multiset Nat)
              + (closed.flatten : Multiset Nat) + (cur : Multiset Nat) := by
              conv_rhs => rw [← hst]
              simp only [List.flatten_append, List.flatten_cons, List.flatten_nil,
                List.append_nil, cmul]
              simp
              abel
      · have h := ih closed (cur ++ [x])
        simp only [passOnce, hl, hble, if_false, List.flatten_cons]
        calc ((st.dropLast ++ (passOnce maxB rest closed (cur ++ [x])).1.flatten
                : List Nat) : Multiset Nat)
              + ((passOnce maxB rest closed (cur ++ [x])).2.1.flatten : Multiset Nat)
              + ((passOnce maxB rest closed (cur ++ [x])).2.2 : Multiset Nat)
            = (st.dropLast : Multiset Nat)
              + (((passOnce maxB rest closed (cur ++ [x])).1.flatten : Multiset Nat)
                + ((passOnce maxB rest closed (cur ++ [x])).2.1.flatten : Multiset Nat)
                + ((passOnce maxB rest closed (cur ++ [x])).2.2 : Multiset Nat)) := by
              rw [cmul]
              abel
          _ = (st.dropLast : Multiset Nat)
              + ((rest.flatten : Multiset Nat) + (closed.flatten : Multiset Nat)
                + ((cur ++ [x] : List Nat) : Multiset Nat)) := by rw [h]
          _ = ((st ++ rest.flatten : List Nat) : Multiset Nat)
              + (closed.flatten : Multiset Nat) + (cur : Multiset Nat) := by
              conv_rhs => rw [← hst]
              simp only [cmul]
              abel

theorem passOnce_total_le (maxB : Nat) (strata closed : List (List Nat)) (cur : List Nat) :
    (((passOnce maxB strata closed cur).1.map List.length).sum)
      ≤ ((strata.map List.length).sum) := by
  induction strata generalizing closed cur with
  | nil => simp [passOnce]
  | cons st rest ih =>
    cases hl : st.getLast? with
    | none =>
      simp only [passOnce, hl, List.map_cons, List.sum_cons]
      exact Nat.add_le_add_left (ih closed cur) _
    | some x =>
      have hlen : st.dropLast.length + 1 = st.length := by
        have h := congrArg List.length (dropLast_getLast?_append st x hl)
        simpa using h
      by_cases hble : maxB ≤ (cur ++ [x]).length
      · simp only [passOnce, hl, hble, if_true, List.map_cons, List.sum_cons]
        have h2 := ih (closed ++ [cur ++ [x]]) []
        omega
      · simp only [passOnce, hl, hble, if_false, List.map_cons, List.sum_cons]
        have h2 := ih closed (cur ++ [x])
        omega

theorem passOnce_total_lt (maxB : Nat) (strata closed : List (List Nat)) (cur : List Nat)
    (hne : strata.all (fun st => st.isEmpty) = false) :
    (((passOnce maxB strata closed cur).1.map List.length).sum)
      < ((strata.map List.length).sum) := by
  induction strata generalizing closed cur with
  | nil => simp at hne
  | cons st rest ih =>
    cases hl : st.getLast? with
    | none =>
      have hst : st = [] := List.getLast?_eq_none_iff.mp hl
      have hrest : rest.all (fun st => st.isEmpty) = false := by
        subst hst
        simpa using hne
      simp only [passOnce, hl, List.map_cons, List.sum_cons]
      exact Nat.add_lt_add_left (ih closed cur hrest) _
    | some x =>
      have hlen : st.dropLast.length + 1 = st.length := by
        have h := congrArg List.length (dropLast_getLast?_append st x hl)
        simpa using h
      by_cases hble : maxB ≤ (cur ++ [x]).length
      · simp only [passOnce, hl, hble, if_true, List.map_cons, List.sum_cons]
        have h2 := passOnce_total_le maxB rest (closed ++ [cur ++ [x]]) []
        omega
      · simp only [passOnce, hl, hble, if_false, List.map_cons, List.sum_cons]
        have h2 := passOnce_total_le maxB rest closed (cur ++ [x])
        omega

theorem all_isEmpty_flatten (strata : List (List Nat))
    (h : strata.all (fun st => st.isEmpty) = true) : strata.flatten = [] := by
  induction strata with
  | nil => rfl
  | cons st rest ih =>
    simp only [List.all_cons, Bool.and_eq_true] at h
    have hst : st = [] := by
      cases st
      · rfl
      · simp at h
    rw [List.flatten_cons, hst, ih h.2, List.nil_append]

theorem sum_len_zero_all_isEmpty (strata : List (List Nat))
    (h : (strata.map List.length).sum = 0) : strata.all (fun st => st.isEmpty) = true := by
  induction strata with
  | nil => rfl
  | cons st rest ih =>
    simp only [List.map_cons, List.sum_cons, Nat.add_eq_zero] at h
    simp only [List.all_cons, Bool.and_eq_true]
    constructor
    · cases st
      · rfl
      · simp at h
    · exact ih h.2

theorem batchWhile_elems (maxB : Nat) : ∀ (fuel : Nat) (strata closed : List (List Nat))
    (cur : List Nat), (strata.map List.length).sum ≤ fuel →
    ((batchWhile maxB fuel strata closed cur).flatten : Multiset Nat)
      = (strata.flatten : Multiset Nat) + (closed.flatten : Multiset Nat)
        + (cur : Multiset Nat) := by
  intro fuel
  induction fuel with
  | zero =>
    intro strata closed cur h0
    have hall := sum_len_zero_all_isEmpty strata (Nat.le_zero.mp h0)
    have hfl := all_isEmpty_flatten strata hall
    simp [batchWhile, hfl]
  | succ fuel ih =>
    intro strata closed cur h
    by_cases hall : strata.all (fun st => st.isEmpty) = true
    · have hfl := all_isEmpty_flatten strata hall
      simp [batchWhile, hall, hfl]
    · have hne : strata.all (fun st => st.isEmpty) = false := by
        cases hv : strata.all (fun st => st.isEmpty)
        · rfl
        · exact absurd hv hall
      have hlt := passOnce_total_lt maxB strata closed cur hne
      simp only [batchWhile, hne, Bool.false_eq_true, if_false]
      rw [ih _ _ _ (by omega)]
      have hpe := passOnce_elems maxB strata closed cur
      calc ((passOnce maxB strata closed cur).1.flatten : Multiset Nat)
            + ((passOnce maxB strata closed cur).2.1.flatten : Multiset Nat)
            + ((passOnce maxB strata closed cur).2.2 : Multiset Nat)
          = (strata.flatten : Multiset Nat) + (closed.flatten : Multiset Nat)
            + (cur : Multiset Nat) := hpe

theorem passOnce_sizes (maxB K : Nat) (strata closed : List (List Nat)) (cur : List Nat)
    (hclosed : ∀ b ∈ closed, b.length ≤ max maxB (K + 1))
    (hcur : cur.length < maxB ∨ cur.length ≤ K) :
    (∀ b ∈ (passOnce maxB strata closed cur).2.1, b.length ≤ max maxB (K + 1)) ∧
    ((passOnce maxB strata closed cur).2.2.length < maxB
      ∨ (passOnce maxB strata closed cur).2.2.length ≤ K) := by
  induction strata generalizing closed cur with
  | nil => exact ⟨hclosed, hcur⟩
  | cons st rest ih =>
    cases hl : st.getLast? with
    | none =>
      simp only [passOnce, hl]
      exact ih closed cur hclosed hcur
    | some x =>
      by_cases hble : maxB ≤ (cur ++ [x]).length
      · simp only [passOnce, hl, hble, if_true]
        refine ih (closed ++ [cur ++ [x]]) [] ?_ (Or.inr (Nat.zero_le K))
        intro b hb
        rcases List.mem_append.mp hb with hb | hb
        · exact hclosed b hb
        · have hb2 : b = cur ++ [x] := by simpa using hb
          subst hb2
          simp only [List.length_append, List.length_cons, List.length_nil]
          rcases hcur with hc | hc
          · have : cur.length + 1 ≤ maxB := hc
            omega
          · omega
      · simp only [passOnce, hl, hble, if_false]
        refine ih closed (cur ++ [x]) hclosed (Or.inl ?_)
        omega

theorem batchWhile_sizes (maxB K : Nat) : ∀ (fuel : Nat) (strata closed : List (List Nat))
    (cur : List Nat), (∀ b ∈ closed, b.length ≤ max maxB (K + 1)) →
    (cur.length < maxB ∨ cur.length ≤ K) →
    ∀ b ∈ batchWhile maxB fuel strata closed cur, b.length ≤ max maxB (K + 1) := by
  intro fuel
  induction fuel with
  | zero =>
    intro strata closed cur hclosed hcur b hb
    simp only [batchWhile] at hb
    rcases List.mem_append.mp hb with hb | hb
    · exact hclosed b hb
    · have hb2 : b = cur := by simpa using hb
      subst hb2
      rcases hcur with hc | hc
      · omega
      · omega
  | succ fuel ih =>
    intro strata closed cur hclosed hcur b hb
    by_cases hall : strata.all (fun st => st.isEmpty) = true
    · simp only [batchWhile, hall, if_true] at hb
      rcases List.mem_append.mp hb with hb | hb
      · exact hclosed b hb
      · have hb2 : b = cur := by simpa using hb
        subst hb2
        rcases hcur with hc | hc
        · omega
        · omega
    · have hne : strata.all (fun st => st.isEmpty) = false := by
        cases hv : strata.all (fun st => st.isEmpty)
        · rfl
        · exact absurd hv hall
      simp only [batchWhile, hne, Bool.false_eq_true, if_false] at hb
      have hs := passOnce_sizes maxB K strata closed cur hclosed hcur
      exact ih _ _ _ hs.1 hs.2 b hb

theorem passOnce_firstBatch (maxB : Nat) (p : List Nat) (strata closed : List (List Nat))
    (cur : List Nat) (h : ∃ t, (closed ++ [cur]).headD [] = p ++ t) :
    ∃ t, ((passOnce maxB strata closed cur).2.1 ++ [(passOnce maxB strata closed cur).2.2]).headD []
      = p ++ t := by
  induction strata generalizing closed cur with
  | nil => exact h
  | cons st rest ih =>
    cases hl : st.getLast? with
    | none =>
      simp only [passOnce, hl]
      exact ih closed cur h
    | some x =>
      by_cases hble : maxB ≤ (cur ++ [x]).length
      · simp only [passOnce, hl, hble, if_true]
        refine ih (closed ++ [cur ++ [x]]) [] ?_
        obtain ⟨t, ht⟩ := h
        cases closed with
        | nil =>
          refine ⟨t ++ [x], ?_⟩
          simp only [List.nil_append, List.headD_cons] at ht
          simp [ht]
        | cons c cs =>
          refine ⟨t, ?_⟩
          simpa using ht
      · simp only [passOnce, hl, hble, if_false]
        refine ih closed (cur ++ [x]) ?_
        obtain ⟨t, ht⟩ := h
        cases closed with
        | nil =>
          refine ⟨t ++ [x], ?_⟩
          simp only [List.nil_append, List.headD_cons] at ht
          simp [ht]
        | cons c cs =>
          refine ⟨t, ?_⟩
          simpa using ht

theorem batchWhile_firstBatch (maxB : Nat) (p : List Nat) : ∀ (fuel : Nat)
    (strata closed : List (List Nat)) (cur : List Nat),
    (∃ t, (closed ++ [cur]).headD [] = p ++ t) →
    ∃ t, (batchWhile maxB fuel strata closed cur).headD [] = p ++ t := by
  intro fuel
  induction fuel with
  | zero =>
    intro strata closed cur h
    simpa [batchWhile] using h
  | succ fuel ih =>
    intro strata closed cur h
    by_cases hall : strata.all (fun st => st.isEmpty) = true
    · simpa [batchWhile, hall] using h
    · have hne : strata.all (fun st => st.isEmpty) = false := by
        cases hv : strata.all (fun st => st.isEmpty)
        · rfl
        · exact absurd hv hall
      simp only [batchWhile, hne, Bool.false_eq_true, if_false]
      exact ih _ _ _ (passOnce_firstBatch maxB p strata closed cur h)

theorem batchWhile_ne_nil (maxB : Nat) : ∀ (fuel : Nat) (strata closed : List (List Nat))
    (cur : List Nat), batchWhile maxB fuel strata closed cur ≠ [] := by
  intro fuel
  induction fuel with
  | zero =>
    intro strata closed cur
    simp [batchWhile]
  | succ fuel ih =>
    intro strata closed cur
    by_cases hall : strata.all (fun st => st.isEmpty) = true
    · simp [batchWhile, hall]
    · have hne : strata.all (fun st => st.isEmpty) = false := by
        cases hv : strata.all (fun st => st.isEmpty)
        · rfl
        · exact absurd hv hall
      simp only [batchWhile, hne, Bool.false_eq_true, if_false]
      exact ih _ _ _

theorem filter_isEmpty_flatten (bs : List (List Nat)) :
    (bs.filter (fun b => !b.isEmpty)).flatten = bs.flatten := by
  induction bs with
  | nil => rfl
  | cons b rest ih =>
    cases b with
    | nil => simpa [List.filter_cons] using ih
    | cons y ys => simp [List.filter_cons, ih]

theorem filter_isEmpty_headD (bs : List (List Nat)) (p t : List Nat) (hp : p ≠ [])
    (hbs : bs ≠ []) (h : bs.headD [] = p ++ t) :
    (bs.filter (fun b => !b.isEmpty)).headD [] = p ++ t := by
  cases bs with
  | nil => exact absurd rfl hbs
  | cons b rest =>
    simp only [List.headD_cons] at h
    subst h
    have hne : (p ++ t).isEmpty = false := by
      cases p
      · exact absurd rfl hp
      · rfl
    simp [List.filter_cons, hne]

/-- C8 (amended): for every reaction list (ranked by rate coefficient at
the reference temperature), `getRxnBatches` returns batches that partition
the input — every reaction index appears in exactly one batch; each batch
contains at most `max(maxBatchSize, 2·outlier_num + 1)` reactions, where
`outlier_num = int(outlierFraction·N/2)` (so at most `maxBatchSize`
whenever the outlier block is smaller than the batch limit, but the first
batch may exceed `maxBatchSize` when the outlier block itself reaches it);
and the first batch begins with the top and bottom `outlier_num` reactions
of the rate ranking.  Stated for any shuffle that permutes its input, at
least one stratum, and an outlier block no larger than the input. -/
theorem C8_getRxnBatches_cascade (shuffle : List Nat → List Nat) (ks : List ℚ) (maxB : Nat) (f : ℚ)
    (stratumNum : Nat) (hshuf : ∀ l, (shuffle l).Perm l) (hs : 1 ≤ stratumNum)
    (hk : 2 * outlierNum f ks.length ≤ ks.length) :
    ((getRxnBatchesIdx shuffle ks maxB f stratumNum).flatten).Perm
        (List.range ks.length) ∧
    (∀ b ∈ getRxnBatchesIdx shuffle ks maxB f stratumNum,
      b.length ≤ max maxB (2 * outlierNum f ks.length + 1)) ∧
    (outlierNum f ks.length ≠ 0 →
      ((getRxnBatchesIdx shuffle ks maxB f stratumNum).headD []).take
          (2 * outlierNum f ks.length)
        = (splitOutliers (argsortQ ks) (outlierNum f ks.length)).2.1
          ++ (splitOutliers (argsortQ ks) (outlierNum f ks.length)).1) ∧
    List.Pairwise (fun a b => ks.getD a 0 ≤ ks.getD b 0) (argsortQ ks) ∧
    ((splitOutliers (argsortQ ks) (outlierNum f ks.length)).1
      ++ (splitOutliers (argsortQ ks) (outlierNum f ks.length)).2.2
      ++ (splitOutliers (argsortQ ks) (outlierNum f ks.length)).2.1) = argsortQ ks := by
  have hindslen : (argsortQ ks).length = ks.length :=
    (argsortQ_perm ks).length_eq.trans (List.length_range ks.length)
  have hk2 : 2 * outlierNum f ks.length ≤ (argsortQ ks).length := by
    rw [hindslen]
    exact hk
  have hlow := splitOutliers_low_len (argsortQ ks) (outlierNum f ks.length) hk2
  have hhigh := splitOutliers_high_len (argsortQ ks) (outlierNum f ks.length) hk2
  have hconcat := splitOutliers_concat (argsortQ ks) (outlierNum f ks.length) hk2
  have hK : ((splitOutliers (argsortQ ks) (outlierNum f ks.length)).2.1
      ++ (splitOutliers (argsortQ ks) (outlierNum f ks.length)).1).length
      = 2 * outlierNum f ks.length := by
    rw [List.length_append, hlow, hhigh]
    omega
  have cmul : ∀ (a b : List Nat), ((a ++ b : List Nat) : Multiset Nat)
      = (a : Multiset Nat) + (b : Multiset Nat) := fun a b => by simp
  refine ⟨?_, ?_, ?_, argsortQ_sorted ks, hconcat⟩
  · -- partition
    rw [← Multiset.coe_eq_coe]
    show (((batchWhile maxB
        (((strataOf shuffle (splitOutliers (argsortQ ks) (outlierNum f ks.length)).2.2
          stratumNum).map List.length).sum + 1)
        (strataOf shuffle (splitOutliers (argsortQ ks) (outlierNum f ks.length)).2.2
          stratumNum) []
        ((splitOutliers (argsortQ ks) (outlierNum f ks.length)).2.1
          ++ (splitOutliers (argsortQ ks) (outlierNum f ks.length)).1)).filter
        (fun b => !b.isEmpty)).flatten : Multiset Nat)
      = ((List.range ks.length : List Nat) : Multiset Nat)
    rw [filter_isEmpty_flatten]
    rw [batchWhile_elems maxB _ _ _ _ (by omega)]
    have hstrata : ((strataOf shuffle
        (splitOutliers (argsortQ ks) (outlierNum f ks.length)).2.2 stratumNum).flatten
          : Multiset Nat)
        = ((splitOutliers (argsortQ ks) (outlierNum f ks.length)).2.2 : Multiset Nat) :=
      Multiset.coe_eq_coe.mpr (strataOf_flatten shuffle hshuf _ stratumNum hs)
    rw [hstrata]
    have hinds : ((argsortQ ks : List Nat) : Multiset Nat)
        = ((List.range ks.length : List Nat) : Multiset Nat) :=
      Multiset.coe_eq_coe.mpr (argsortQ_perm ks)
    have hsplitsum : ((splitOutliers (argsortQ ks) (outlierNum f ks.length)).1 : Multiset Nat)
        + ((splitOutliers (argsortQ ks) (outlierNum f ks.length)).2.2 : Multiset Nat)
        + ((splitOutliers (argsortQ ks) (outlierNum f ks.length)).2.1 : Multiset Nat)
        = ((argsortQ ks : List Nat) : Multiset Nat) := by
      have h2 : ((((splitOutliers (argsortQ ks) (outlierNum f ks.length)).1
          ++ (splitOutliers (argsortQ ks) (outlierNum f ks.length)).2.2
          ++ (splitOutliers (argsortQ ks) (outlierNum f ks.length)).2.1 : List Nat))
            : Multiset Nat)
          = ((argsortQ ks : List Nat) : Multiset Nat) := by rw [hconcat]
      rw [cmul, cmul] at h2
      exact h2
    rw [← hinds, ← hsplitsum]
    simp only [cmul, List.flatten_nil, Multiset.coe_nil]
    abel
  · -- sizes
    intro b hb
    have hb2 : b ∈ batchWhile maxB
        (((strataOf shuffle (splitOutliers (argsortQ ks) (outlierNum f ks.length)).2.2
          stratumNum).map List.length).sum + 1)
        (strataOf shuffle (splitOutliers (argsortQ ks) (outlierNum f ks.length)).2.2
          stratumNum) []
        ((splitOutliers (argsortQ ks) (outlierNum f ks.length)).2.1
          ++ (splitOutliers (argsortQ ks) (outlierNum f ks.length)).1) :=
      List.mem_of_mem_filter hb
    exact batchWhile_sizes maxB (2 * outlierNum f ks.length) _ _ _ _
      (by intro b2 hb2; simp at hb2) (Or.inr (le_of_eq hK)) b hb2
  · -- first batch
    intro hk0
    obtain ⟨t, ht⟩ := batchWhile_firstBatch maxB
      ((splitOutliers (argsortQ ks) (outlierNum f ks.length)).2.1
        ++ (splitOutliers (argsortQ ks) (outlierNum f ks.length)).1)
      (((strataOf shuffle (splitOutliers (argsortQ ks) (outlierNum f ks.length)).2.2
          stratumNum).map List.length).sum + 1)
      (strataOf shuffle (splitOutliers (argsortQ ks) (outlierNum f ks.length)).2.2
        stratumNum) []
      ((splitOutliers (argsortQ ks) (outlierNum f ks.length)).2.1
        ++ (splitOutliers (argsortQ ks) (outlierNum f ks.length)).1)
      ⟨[], by simp⟩
    have hp : ((splitOutliers (argsortQ ks) (outlierNum f ks.length)).2.1
        ++ (splitOutliers (argsortQ ks) (outlierNum f ks.length)).1) ≠ [] := by
      intro hcontr
      have := congrArg List.length hcontr
      rw [hK] at this
      simp at this
      omega
    have hhd := filter_isEmpty_headD _ _ t hp (batchWhile_ne_nil maxB _ _ _ _) ht
    show ((getRxnBatchesIdx shuffle ks maxB f stratumNum).headD []).take
        (2 * outlierNum f ks.length) = _
    have hres : (getRxnBatchesIdx shuffle ks maxB f stratumNum).headD []
        = ((splitOutliers (argsortQ ks) (outlierNum f ks.length)).2.1
          ++ (splitOutliers (argsortQ ks) (outlierNum f ks.length)).1) ++ t := hhd
    rw [hres, ← hK, List.take_left]


/-- C8 counterexample: with eight reactions of ascending rates,
`maxBatchSize = 4`, `outlierFraction = 1/2` and the default eight strata,
the outlier seed (indices 6, 7, 0, 1) plus the first stratum pop gives a
first batch of five reactions — more than `maxBatchSize` — because the
loop only closes a batch after it has already reached the limit and the
outlier seed is never size-checked. -/
theorem outlierNum_half_of_eight : outlierNum (1 / 2) 8 = 2 := by
  have h : (1 / 2 : ℚ) * (8 : Nat) / 2 = 2 := by norm_num
  rw [outlierNum, h]
  decide

theorem C8_counterexample :
    getRxnBatchesIdx id [0, 1, 2, 3, 4, 5, 6, 7] 4 (1 / 2) 8
        = [[6, 7, 0, 1, 5], [4, 3, 2]] ∧
    ([6, 7, 0, 1, 5] : List Nat).length > 4 := by
  have hk : outlierNum (1 / 2) ([0, 1, 2, 3, 4, 5, 6, 7] : List ℚ).length = 2 := by
    show outlierNum (1 / 2) 8 = 2
    exact outlierNum_half_of_eight
  constructor
  · simp only [getRxnBatchesIdx, hk]
    decide
  · decide

/-- Witness for C8 at the counterexample input: the batches partition the
eight indices and the first batch starts with the two highest- and two
lowest-rate indices. -/
theorem C8_getRxnBatches_cascade_witness :
    ((getRxnBatchesIdx id [0, 1, 2, 3, 4, 5, 6, 7] 4 (1 / 2) 8).flatten).Perm
        (List.range ([0, 1, 2, 3, 4, 5, 6, 7] : List ℚ).length) ∧
    ((getRxnBatchesIdx id [0, 1, 2, 3, 4, 5, 6, 7] 4 (1 / 2) 8).headD []).take
        (2 * outlierNum (1 / 2) ([0, 1, 2, 3, 4, 5, 6, 7] : List ℚ).length)
      = (splitOutliers (argsortQ [0, 1, 2, 3, 4, 5, 6, 7])
          (outlierNum (1 / 2) ([0, 1, 2, 3, 4, 5, 6, 7] : List ℚ).length)).2.1
        ++ (splitOutliers (argsortQ [0, 1, 2, 3, 4, 5, 6, 7])
          (outlierNum (1 / 2) ([0, 1, 2, 3, 4, 5, 6, 7] : List ℚ).length)).1 :=
⟨(C8_getRxnBatches_cascade id [0, 1, 2, 3, 4, 5, 6, 7] 4 (1 / 2) 8
    (fun l => List.Perm.refl l) (by decide)
    (by rw [show outlierNum (1 / 2) ([0, 1, 2, 3, 4, 5, 6, 7] : List ℚ).length = 2
          from outlierNum_half_of_eight]
        decide)).1,
  (C8_getRxnBatches_cascade id [0, 1, 2, 3, 4, 5, 6, 7] 4 (1 / 2) 8
    (fun l => List.Perm.refl l) (by decide)
    (by rw [show outlierNum (1 / 2) ([0, 1, 2, 3, 4, 5, 6, 7] : List ℚ).length = 2
          from outlierNum_half_of_eight]
        decide)).2.2.1
    (by rw [show outlierNum (1 / 2) ([0, 1, 2, 3, 4, 5, 6, 7] : List ℚ).length = 2
          from outlierNum_half_of_eight]
        decide)⟩

end RMG
